import Mathlib

/-!
Shallow embedding of `qiskit/extensions/quantum_initializer/diag.py`: the diagonal-gate
synthesis `DiagGate._dec_diag`, its helper `_extract_rz`, the validation performed by
`DiagGate.__init__`, and the `diag_gate` circuit method.  Python floats are embedded as
exact real (or an arbitrary field, where the code is purely arithmetic) values; lists of
phases stay lists; the emitted circuit is the list of `ucz` calls, each recorded as a
`RotationInstruction`.
-/

/-- Tolerance `_EPS = 1e-10` used by the modulus check in `DiagGate.__init__`. -/
def _EPS : ℝ := 1e-10

/-- `_extract_rz(phi1, phi2)`: `phase = (phi1 + phi2) / 2.0`, `z_angle = phi2 - phi1`,
returned as `(phase, z_angle)`. -/
def extract_rz {α : Type} [Field α] (phi1 phi2 : α) : α × α :=
  ((phi1 + phi2) / 2, phi2 - phi1)

/-- One `circuit.ucz(angles_rz, contr_qubits, target_qubit)` call emitted by
`DiagGate._dec_diag`, recorded as data: the angle list, the control-qubit indices and the
target-qubit index.  The `QuantumRegister q` is embedded as the list of its qubit indices
`0, 1, ..., num_qubits - 1`, so a slice `q[a:b]` becomes `List.range' a (b - a)`. -/
structure RotationInstruction (α : Type) where
  angles : List α
  controls : List ℕ
  target : ℕ

/-- Body of the inner loop `for i in range(0, n, 2)` of `DiagGate._dec_diag`.  The state is
the pair (`diag_phases`, `angles_rz`); the body reads `diag_phases[i]` and
`diag_phases[i + 1]`, overwrites `diag_phases[i // 2]` with the merged phase and appends
the extracted rotation angle to `angles_rz`. -/
def rz_step {α : Type} [Field α] (s : List α × List α) (i : ℕ) : List α × List α :=
  (s.1.set (i / 2) (extract_rz (s.1.getD i 0) (s.1.getD (i + 1) 0)).1,
   s.2 ++ [(extract_rz (s.1.getD i 0) (s.1.getD (i + 1) 0)).2])

/-- The whole inner loop of one level of `DiagGate._dec_diag`: fold `rz_step` over
`range(0, n, 2)`, which has `(n + 1) / 2` elements, starting from the current phase list
and the empty `angles_rz` list. -/
def level_pass {α : Type} [Field α] (phases : List α) (n : ℕ) : List α × List α :=
  (List.range' 0 ((n + 1) / 2) 2).foldl rz_step (phases, [])

/-- The `while n >= 2` loop of `DiagGate._dec_diag`.  At each iteration the level's angles
are extracted by `level_pass`, `num_act_qubits = int(np.log2(n))`, the call
`circuit.ucz(angles_rz, q[num_qubits - num_act_qubits + 1 : num_qubits],
q[num_qubits - num_act_qubits])` is recorded, and `n //= 2`. -/
def dec_diag_loop {α : Type} [Field α] (numQubits : ℕ) (phases : List α) (n : ℕ) :
    List (RotationInstruction α) :=
  if h : 2 ≤ n then
    { angles := (level_pass phases n).2,
      controls := List.range' (numQubits - Nat.log2 n + 1)
        (numQubits - (numQubits - Nat.log2 n + 1)),
      target := numQubits - Nat.log2 n } ::
      dec_diag_loop numQubits (level_pass phases n).1 (n / 2)
  else []
termination_by n
decreasing_by exact Nat.div_lt_self (by omega) (by omega)

/-- `DiagGate._dec_diag`: extract the phases `diag_phases = [cmath.phase(z) for z in
self.params]`, set `n = len(self.params)`, and run the reduction loop.  `numQubits` plays
the role of `self.num_qubits` (which `__init__` sets to `log2(len(diag))`). -/
noncomputable def dec_diag (numQubits : ℕ) (params : List ℂ) :
    List (RotationInstruction ℝ) :=
  dec_diag_loop numQubits (params.map Complex.arg) params.length

/-- The single phase left over when the `while` loop of `_dec_diag` finishes
(`diag_phases[0]` once `n == 1`); the code drops it, making it the global phase by which
the synthesized circuit differs from the input diagonal. -/
def final_phase {α : Type} [Field α] (phases : List α) (n : ℕ) : α :=
  if h : 2 ≤ n then final_phase (level_pass phases n).1 (n / 2) else phases.getD 0 0
termination_by n
decreasing_by exact Nat.div_lt_self (by omega) (by omega)

/-- Modelled from the spec: the control-bit pattern that selects the angle of a
uniformly-controlled rotation (`QuantumCircuit.ucz` is not among the sources; §4.4 of the
spec fixes that angle index `i` is applied at the control state whose binary
representation is `i`, the first listed control qubit being the least significant bit).
`j` is the basis-state index, bit `q` of `j` being the state of qubit `q`. -/
def uczPattern (controls : List ℕ) (j : ℕ) : ℕ :=
  match controls with
  | [] => 0
  | c :: cs => j / 2 ^ c % 2 + 2 * uczPattern cs j

/-- Modelled from the spec: the phase (in radians) that one uniformly-controlled
Z-rotation instruction applies to basis state `j`.  An `Rz(theta)` gate is
`diag(exp(-i*theta/2), exp(i*theta/2))` — the convention under which, per the comment on
`_extract_rz`, `exp(i*phase) * Rz(z_angle)` equals `diag(exp(i*ph1), exp(i*ph2))` — so the
contribution is `±theta/2` according to the target-qubit bit of `j`, with `theta` the
angle selected by the control-bit pattern. -/
noncomputable def instrPhase (ins : RotationInstruction ℝ) (j : ℕ) : ℝ :=
  (if j / 2 ^ ins.target % 2 = 1 then (1 : ℝ) else -1) *
    ins.angles.getD (uczPattern ins.controls j) 0 / 2

/-- Total phase applied to basis state `j` by a list of uniformly-controlled Z-rotation
instructions (each such gate is diagonal, so composition adds the phases). -/
noncomputable def circuitPhase (instrs : List (RotationInstruction ℝ)) (j : ℕ) : ℝ :=
  (instrs.map (fun ins => instrPhase ins j)).sum

/-- The scalar one instruction multiplies onto basis state `j`. -/
noncomputable def instrScalar (ins : RotationInstruction ℝ) (j : ℕ) : ℂ :=
  Complex.exp (instrPhase ins j * Complex.I)

/-- The scalar the composed emitted circuit multiplies onto basis state `j`: the product,
over the emitted instructions, of each gate's diagonal entry at `j`. -/
noncomputable def circuitScalar (instrs : List (RotationInstruction ℝ)) (j : ℕ) : ℂ :=
  (instrs.map (fun ins => instrScalar ins j)).prod

/-- The entry check of `DiagGate.__init__`: the guard `if not np.abs(z) - 1 < _EPS` does
not fire, i.e. `|z| - 1 < _EPS`.  (Note the one-sided inequality, exactly as in the
source.) -/
def entry_check_passes (z : ℂ) : Prop := Complex.abs z - 1 < _EPS

/-- The length check of `DiagGate.__init__` read in exact real arithmetic:
`num_action_qubits = math.log2(len(diag))` followed by the guard
`if num_action_qubits < 1 or not num_action_qubits.is_integer(): raise QiskitError(...)`;
passing means the guard does not fire. -/
def length_check_real (n : ℕ) : Prop :=
  ¬ (Real.logb 2 (n : ℝ) < 1 ∨ ¬ ∃ m : ℤ, Real.logb 2 (n : ℝ) = (m : ℝ))

/-- Decidable form of the length check of `DiagGate.__init__`: for `n ≥ 1`, `log2 n` is an
integer `≥ 1` exactly when `n` is `2 ^ Nat.log2 n` and `n ≥ 2` (proved equivalent to
`length_check_real` in `length_check_real_iff_passes`). -/
def length_check_passes (n : ℕ) : Prop := 2 ≤ n ∧ n = 2 ^ Nat.log2 n

instance (n : ℕ) : Decidable (length_check_passes n) :=
  inferInstanceAs (Decidable (2 ≤ n ∧ n = 2 ^ Nat.log2 n))

/-- Kinds of exception that can escape `DiagGate.__init__` and `diag_gate`:
`math.log2(0)` raises an untyped `ValueError` (Python math-domain error); the explicit
`raise QiskitError(...)` sites are distinguished by which check fired. -/
inductive PyError where
  | valueError
  | structuralQiskitError
  | qubitCountQiskitError
  deriving DecidableEq

/-- The structural part of `DiagGate.__init__` on a diagonal of length `n`: for `n = 0`,
`math.log2(0)` raises `ValueError` (Python math-domain error) before the power-of-two
guard can run; otherwise the guard raises `QiskitError("The number of diagonal entries is
not a positive power of 2.")` unless the length check passes.  `none` means control
proceeds to the per-entry checks. -/
def init_structural_error (n : ℕ) : Option PyError :=
  if n = 0 then some PyError.valueError
  else if length_check_passes n then none
  else some PyError.structuralQiskitError

/-- `DiagGate.__init__` succeeds on `diag = d`: the length check passes and every entry
passes the modulus check.  (In this embedding entries are complex numbers by type, so the
`complex(z)` conversion check of the source cannot fail and is omitted; the `isinstance`
list check is likewise discharged by the type `List ℂ`.) -/
def DiagGate_accepts (d : List ℂ) : Prop :=
  length_check_passes d.length ∧ ∀ z ∈ d, entry_check_passes z

/-- The checks `diag_gate(self, diag, qubit)` performs before
`self.append(DiagGate(diag), qubit)`: after the `isinstance` checks (discharged by the
types here), `num_action_qubits = math.log2(len(diag))` raises `ValueError` on the empty
list; then `if not len(qubit) == num_action_qubits: raise QiskitError(...)` — in exact
arithmetic, for `len(diag) ≥ 1`, the float equality `len(qubit) == log2(len(diag))` holds
iff `len(diag) = 2 ^ len(qubit)`.  `none` means control reaches the `DiagGate`
construction and the `append`; `some e` means the error is raised and no gate is ever
appended. -/
def diag_gate_error (diag : List ℂ) (qubit : List ℕ) : Option PyError :=
  if diag.length = 0 then some PyError.valueError
  else if ¬ diag.length = 2 ^ qubit.length then some PyError.qubitCountQiskitError
  else none

/-- The merged phase a level writes at position `v`: `(phase[2v] + phase[2v+1]) / 2`
(first component of `_extract_rz`). -/
def merged_phase {α : Type} [Field α] (ph : List α) (v : ℕ) : α :=
  (ph.getD (2 * v) 0 + ph.getD (2 * v + 1) 0) / 2

/-- The rotation angle a level records for pair index `v`: `phase[2v+1] - phase[2v]`
(second component of `_extract_rz`). -/
def rz_angle {α : Type} [Field α] (ph : List α) (v : ℕ) : α :=
  ph.getD (2 * v + 1) 0 - ph.getD (2 * v) 0

/-- Reference model for claim C10, following the spec's words: the functional two-buffer
reduction that maps `[p0, p1, p2, p3, ...]` to `[(p0 + p1) / 2, (p2 + p3) / 2, ...]`. -/
def pairMeans {α : Type} [Field α] : List α → List α
  | p0 :: p1 :: rest => (p0 + p1) / 2 :: pairMeans rest
  | _ => []

/-- Reference model for claim C10: the angle list of one level,
`[p1 - p0, p3 - p2, ...]`. -/
def pairDeltas {α : Type} [Field α] : List α → List α
  | p0 :: p1 :: rest => (p1 - p0) :: pairDeltas rest
  | _ => []

/-! ### Helper lemmas about the reduction loop -/

theorem log2_two_pow (m : ℕ) : Nat.log2 (2 ^ m) = m := by
  rw [Nat.log2_eq_log_two, Nat.log_pow (by omega)]

theorem foldl_rz_step {α : Type} [Field α] (ph a : List α) (t : ℕ) :
    ((List.range' 0 t 2).foldl rz_step (ph, a)).1.length = ph.length ∧
    (∀ v : ℕ, ((List.range' 0 t 2).foldl rz_step (ph, a)).1.getD v 0 =
      if v < t then merged_phase ph v else ph.getD v 0) ∧
    ((List.range' 0 t 2).foldl rz_step (ph, a)).2 =
      a ++ (List.range t).map (rz_angle ph) := by
  induction t with
  | zero => simp
  | succ t ih =>
    obtain ⟨ih1, ih2, ih3⟩ := ih
    rw [List.range'_concat, List.foldl_append]
    have hr1 : ((List.range' 0 t 2).foldl rz_step (ph, a)).1.getD (0 + 2 * t) 0 =
        ph.getD (2 * t) 0 := by
      rw [ih2]; simp only [Nat.zero_add]
      rw [if_neg (by omega)]
    have hr2 : ((List.range' 0 t 2).foldl rz_step (ph, a)).1.getD (0 + 2 * t + 1) 0 =
        ph.getD (2 * t + 1) 0 := by
      rw [ih2]; simp only [Nat.zero_add]
      rw [if_neg (by omega)]
    simp only [List.foldl_cons, List.foldl_nil, rz_step, extract_rz, hr1, hr2]
    refine ⟨by simpa using ih1, ?_, ?_⟩
    · intro v
      have hdiv : (0 + 2 * t) / 2 = t := by omega
      rw [hdiv, List.getD_eq_getElem?_getD, List.getElem?_set]
      rcases eq_or_ne t v with rfl | hne
      · rw [if_pos rfl, if_pos (Nat.lt_succ_self t)]
        by_cases hlen : t < ((List.range' 0 t 2).foldl rz_step (ph, a)).1.length
        · rw [if_pos hlen]
          simp [merged_phase]
        · rw [if_neg hlen, Option.getD_none]
          rw [ih1] at hlen
          have h2t : ph.length ≤ 2 * t := by omega
          have h2t1 : ph.length ≤ 2 * t + 1 := by omega
          rw [merged_phase, List.getD_eq_default _ _ h2t, List.getD_eq_default _ _ h2t1]
          norm_num
      · rw [if_neg hne, ← List.getD_eq_getElem?_getD, ih2]
        rcases lt_or_ge v t with hv | hv
        · rw [if_pos hv, if_pos (by omega)]
        · rw [if_neg (by omega), if_neg (by omega)]
    · rw [ih3, List.range_succ, List.map_append]
      simp [rz_angle, Nat.zero_add]

theorem level_pass_fst_length {α : Type} [Field α] (ph : List α) (n : ℕ) :
    (level_pass ph n).1.length = ph.length :=
  (foldl_rz_step ph [] ((n + 1) / 2)).1

theorem level_pass_fst_getD {α : Type} [Field α] (ph : List α) (n v : ℕ) :
    (level_pass ph n).1.getD v 0 =
      if v < (n + 1) / 2 then merged_phase ph v else ph.getD v 0 :=
  (foldl_rz_step ph [] ((n + 1) / 2)).2.1 v

theorem level_pass_snd {α : Type} [Field α] (ph : List α) (n : ℕ) :
    (level_pass ph n).2 = (List.range ((n + 1) / 2)).map (rz_angle ph) := by
  have h := (foldl_rz_step ph ([] : List α) ((n + 1) / 2)).2.2
  simpa [level_pass] using h

theorem dec_diag_loop_of_le {α : Type} [Field α] (nq : ℕ) (ph : List α) (n : ℕ)
    (h : 2 ≤ n) :
    dec_diag_loop nq ph n =
      { angles := (level_pass ph n).2,
        controls := List.range' (nq - Nat.log2 n + 1) (nq - (nq - Nat.log2 n + 1)),
        target := nq - Nat.log2 n } :: dec_diag_loop nq (level_pass ph n).1 (n / 2) := by
  rw [dec_diag_loop]
  simp [h]

theorem dec_diag_loop_of_lt {α : Type} [Field α] (nq : ℕ) (ph : List α) (n : ℕ)
    (h : n < 2) : dec_diag_loop nq ph n = [] := by
  rw [dec_diag_loop]
  simp [Nat.not_le.2 h]

theorem final_phase_of_le {α : Type} [Field α] (ph : List α) (n : ℕ) (h : 2 ≤ n) :
    final_phase ph n = final_phase (level_pass ph n).1 (n / 2) := by
  rw [final_phase]
  simp [h]

theorem final_phase_of_lt {α : Type} [Field α] (ph : List α) (n : ℕ) (h : n < 2) :
    final_phase ph n = ph.getD 0 0 := by
  rw [final_phase]
  simp [Nat.not_le.2 h]

theorem uczPattern_range' (j : ℕ) : ∀ (m c : ℕ),
    uczPattern (List.range' c m) j = j / 2 ^ c % 2 ^ m := by
  intro m
  induction m with
  | zero =>
    intro c
    simp [uczPattern, Nat.mod_one]
  | succ m ih =>
    intro c
    rw [List.range'_succ, uczPattern, ih (c + 1)]
    have hdd : j / 2 ^ (c + 1) = j / 2 ^ c / 2 := by
      rw [Nat.div_div_eq_div_mul, ← pow_succ]
    rw [hdd, pow_succ, Nat.mul_comm (2 ^ m) 2]
    exact Nat.mod_mul.symm

theorem getD_map_range {α : Type} (d : α) (f : ℕ → α) {t p : ℕ} (hp : p < t) :
    ((List.range t).map f).getD p d = f p := by
  rw [List.getD_eq_getElem?_getD, List.getElem?_map, List.getElem?_range hp]
  rfl

theorem circuitPhase_cons (ins : RotationInstruction ℝ)
    (L : List (RotationInstruction ℝ)) (j : ℕ) :
    circuitPhase (ins :: L) j = instrPhase ins j + circuitPhase L j := by
  simp [circuitPhase]

theorem circuitPhase_nil (j : ℕ) : circuitPhase [] j = 0 := by
  simp [circuitPhase]

theorem phase_loop : ∀ (m : ℕ), 1 ≤ m → ∀ (nq : ℕ), m ≤ nq → ∀ (ph : List ℝ) (j : ℕ),
    j < 2 ^ nq →
    circuitPhase (dec_diag_loop nq ph (2 ^ m)) j =
      ph.getD (j / 2 ^ (nq - m)) 0 - final_phase ph (2 ^ m) := by
  intro m
  induction m with
  | zero => omega
  | succ m ih =>
    intro _ nq hnq ph j hj
    have h2 : (2 : ℕ) ≤ 2 ^ (m + 1) := by
      have h : (2 : ℕ) ^ 1 ≤ 2 ^ (m + 1) := Nat.pow_le_pow_right (by omega) (by omega)
      simpa using h
    have heven : (2 : ℕ) ^ (m + 1) = 2 * 2 ^ m := by
      rw [pow_succ]
      ring
    have hhalf : 2 ^ (m + 1) / 2 = 2 ^ m := by omega
    have hhalf2 : (2 ^ (m + 1) + 1) / 2 = 2 ^ m := by omega
    have hlog : Nat.log2 (2 ^ (m + 1)) = m + 1 := log2_two_pow (m + 1)
    have hsub1 : nq - (m + 1) + 1 = nq - m := by omega
    have hsub2 : nq - (nq - m) = m := by omega
    have hemit := dec_diag_loop_of_le nq ph (2 ^ (m + 1)) h2
    rw [hlog, hsub1, hsub2, hhalf] at hemit
    rw [hemit, circuitPhase_cons]
    have hfin : final_phase ph (2 ^ (m + 1)) =
        final_phase (level_pass ph (2 ^ (m + 1))).1 (2 ^ m) := by
      rw [final_phase_of_le ph _ h2, hhalf]
    have hA : j / 2 ^ (nq - m) = j / 2 ^ (nq - (m + 1)) / 2 := by
      rw [Nat.div_div_eq_div_mul, ← pow_succ, hsub1]
    have hAlt : j / 2 ^ (nq - m) < 2 ^ m := by
      rw [Nat.div_lt_iff_lt_mul (Nat.pos_pow_of_pos _ (by omega)), ← pow_add]
      have hside : m + (nq - m) = nq := by omega
      rw [hside]
      exact hj
    have hang : (level_pass ph (2 ^ (m + 1))).2 =
        (List.range (2 ^ m)).map (rz_angle ph) := by
      rw [level_pass_snd, hhalf2]
    have hpat : uczPattern (List.range' (nq - m) m) j = j / 2 ^ (nq - m) := by
      rw [uczPattern_range' j m (nq - m)]
      exact Nat.mod_eq_of_lt hAlt
    have hsplit : j / 2 ^ (nq - (m + 1)) =
        2 * (j / 2 ^ (nq - m)) + j / 2 ^ (nq - (m + 1)) % 2 := by
      rw [hA]
      exact (Nat.div_add_mod _ 2).symm
    rcases Nat.eq_zero_or_pos m with rfl | hmpos
    · -- base level: n = 2 ^ 1 = 2, no controls, the loop then stops
      have hstop : circuitPhase (dec_diag_loop nq (level_pass ph (2 ^ (0 + 1))).1 (2 ^ 0))
          j = 0 := by
        rw [dec_diag_loop_of_lt nq _ (2 ^ 0) (by norm_num), circuitPhase_nil]
      have hu0 : j / 2 ^ (nq - 0) = 0 := by
        simp only [Nat.sub_zero]
        exact Nat.div_eq_of_lt hj
      rw [hstop, hfin, final_phase_of_lt _ (2 ^ 0) (by norm_num), level_pass_fst_getD,
        if_pos (by rw [hhalf2]; norm_num : (0 : ℕ) < (2 ^ (0 + 1) + 1) / 2)]
      simp only [instrPhase, List.range'_zero, uczPattern, hang]
      rw [getD_map_range _ _ (by norm_num : (0 : ℕ) < 2 ^ 0)]
      rcases Nat.mod_two_eq_zero_or_one (j / 2 ^ (nq - (0 + 1))) with hb | hb
      · rw [if_neg (by rw [hb]; decide), hsplit, hb, hu0]
        simp only [Nat.mul_zero, Nat.add_zero, rz_angle, merged_phase, Nat.zero_add]
        ring
      · rw [if_pos hb, hsplit, hb, hu0]
        simp only [Nat.mul_zero, Nat.zero_add, rz_angle, merged_phase]
        ring
    · -- inductive level
      have hrec := ih hmpos nq (by omega) (level_pass ph (2 ^ (m + 1))).1 j hj
      rw [hrec, hfin]
      rw [level_pass_fst_getD, if_pos (by rw [hhalf2]; exact hAlt)]
      simp only [instrPhase, hpat, hang]
      rw [getD_map_range _ _ hAlt]
      rcases Nat.mod_two_eq_zero_or_one (j / 2 ^ (nq - (m + 1))) with hb | hb
      · rw [if_neg (by rw [hb]; decide), hsplit, hb]
        simp only [Nat.add_zero, rz_angle, merged_phase]
        ring
      · rw [if_pos hb, hsplit, hb]
        simp only [rz_angle, merged_phase]
        ring

theorem circuitScalar_eq_exp (instrs : List (RotationInstruction ℝ)) (j : ℕ) :
    circuitScalar instrs j = Complex.exp ((circuitPhase instrs j : ℝ) * Complex.I) := by
  induction instrs with
  | nil =>
    simp [circuitScalar, circuitPhase, Complex.ofReal_zero]
  | cons ins L ihl =>
    rw [circuitPhase_cons]
    simp only [circuitScalar, List.map_cons, List.prod_cons]
    rw [show ((instrPhase ins j + circuitPhase L j : ℝ) : ℂ) =
      (instrPhase ins j : ℝ) + (circuitPhase L j : ℝ) from by push_cast; ring]
    rw [add_mul, Complex.exp_add, ← ihl]
    rfl

theorem getD_map_arg (d : List ℂ) (j : ℕ) (hj : j < d.length) :
    (d.map Complex.arg).getD j 0 = Complex.arg (d.getD j 1) := by
  rw [List.getD_eq_getElem?_getD, List.getD_eq_getElem?_getD, List.getElem?_map,
    List.getElem?_eq_getElem hj]
  rfl

/-- C1: for every validated diagonal spec (a list of `2 ^ k` unit-modulus complex numbers,
`k ≥ 1`), composing the rotation instructions emitted by `_dec_diag`, each interpreted as
a uniformly-controlled Z-rotation over the full `2 ^ k`-dimensional state space,
reproduces the original diagonal up to a single global scalar phase on all `2 ^ k` basis
states: there is one unit-modulus `c` with `circuitScalar (dec_diag k d) j = c * d[j]`
for every basis state `j` (exactly, in real arithmetic). -/
theorem C1_unitarity_round_trip (k : ℕ) (d : List ℂ) (hk : 1 ≤ k)
    (hlen : d.length = 2 ^ k) (hmod : ∀ z ∈ d, Complex.abs z = 1) :
    ∃ c : ℂ, Complex.abs c = 1 ∧ ∀ j : ℕ, j < 2 ^ k →
      circuitScalar (dec_diag k d) j = c * d.getD j 1 := by
  refine ⟨Complex.exp ((-final_phase (d.map Complex.arg) (2 ^ k) : ℝ) * Complex.I),
    Complex.abs_exp_ofReal_mul_I _, ?_⟩
  intro j hj
  have hloop := phase_loop k hk k le_rfl (d.map Complex.arg) j hj
  rw [circuitScalar_eq_exp, dec_diag, hlen, hloop]
  have hjlen : j < d.length := by omega
  rw [Nat.sub_self, pow_zero, Nat.div_one, getD_map_arg d j hjlen]
  have hgetD : d.getD j 1 = d.get ⟨j, hjlen⟩ := by
    rw [List.getD_eq_getElem?_getD, List.getElem?_eq_getElem hjlen]
    rfl
  have habs : Complex.abs (d.getD j 1) = 1 := by
    apply hmod
    rw [hgetD]
    exact List.get_mem d j hjlen
  have hz : Complex.exp ((Complex.arg (d.getD j 1) : ℝ) * Complex.I) = d.getD j 1 := by
    have h := Complex.abs_mul_exp_arg_mul_I (d.getD j 1)
    rw [habs] at h
    simpa using h
  rw [show ((Complex.arg (d.getD j 1) - final_phase (d.map Complex.arg) (2 ^ k) : ℝ) : ℂ)
      = ((Complex.arg (d.getD j 1) : ℝ) : ℂ) +
        ((-final_phase (d.map Complex.arg) (2 ^ k) : ℝ) : ℂ) from by push_cast; ring]
  rw [add_mul, Complex.exp_add, hz]
  ring

theorem two_le_two_pow_succ (m : ℕ) : (2 : ℕ) ≤ 2 ^ (m + 1) := by
  have h : (2 : ℕ) ^ 1 ≤ 2 ^ (m + 1) := Nat.pow_le_pow_right (by omega) (by omega)
  simpa using h

theorem two_pow_succ_div_two (m : ℕ) : 2 ^ (m + 1) / 2 = 2 ^ m := by
  rw [pow_succ, Nat.mul_div_cancel]
  omega

theorem dec_diag_loop_length {α : Type} [Field α] (nq : ℕ) :
    ∀ (m : ℕ) (ph : List α), (dec_diag_loop nq ph (2 ^ m)).length = m := by
  intro m
  induction m with
  | zero =>
    intro ph
    rw [pow_zero, dec_diag_loop_of_lt nq ph 1 (by omega)]
    rfl
  | succ m ih =>
    intro ph
    rw [dec_diag_loop_of_le nq ph _ (two_le_two_pow_succ m), List.length_cons,
      two_pow_succ_div_two, ih]

/-- Witness for C1 at the concrete validated diagonal `[1, -1]` on one qubit. -/
theorem C1_witness :
    ∃ c : ℂ, Complex.abs c = 1 ∧ ∀ j : ℕ, j < 2 ^ 1 →
      circuitScalar (dec_diag 1 [1, -1]) j = c * ([1, -1] : List ℂ).getD j 1 :=
  C1_unitarity_round_trip 1 [1, -1] (by omega) (by norm_num)
    (by
      intro z hz
      rcases List.mem_cons.mp hz with rfl | hz2
      · simp
      · rcases List.mem_cons.mp hz2 with rfl | hz3
        · simp
        · simp at hz3)

/-- C8: for every validated diagonal of length `2 ^ k` the reduction loop of `_dec_diag`
terminates after exactly `k` levels (the active length starts at `2 ^ k` and halves each
level until a single phase remains), emitting exactly `k` rotation instructions, one per
level. -/
theorem C8_terminates_k_levels (k : ℕ) (d : List ℂ) (hk : 1 ≤ k)
    (hlen : d.length = 2 ^ k) : (dec_diag k d).length = k := by
  rw [dec_diag, hlen]
  exact dec_diag_loop_length k k (d.map Complex.arg)

/-- Witness for C8 on the length-4 all-ones diagonal (`k = 2`). -/
theorem C8_witness : (dec_diag 2 [1, 1, 1, 1]).length = 2 :=
  C8_terminates_k_levels 2 [1, 1, 1, 1] (by omega) (by norm_num)

theorem dec_diag_loop_getD (nq : ℕ) : ∀ (m : ℕ), m ≤ nq → ∀ (ph : List ℝ) (i : ℕ),
    i < m →
    ((dec_diag_loop nq ph (2 ^ m)).getD i
        { angles := [], controls := [], target := 0 }).controls
      = List.range' (nq - m + i + 1) (m - i - 1) ∧
    ((dec_diag_loop nq ph (2 ^ m)).getD i
        { angles := [], controls := [], target := 0 }).target = nq - m + i := by
  intro m
  induction m with
  | zero => omega
  | succ m ih =>
    intro hm ph i hi
    have hlog : Nat.log2 (2 ^ (m + 1)) = m + 1 := log2_two_pow (m + 1)
    have hemit := dec_diag_loop_of_le nq ph (2 ^ (m + 1)) (two_le_two_pow_succ m)
    rw [hlog, two_pow_succ_div_two] at hemit
    rw [hemit]
    cases i with
    | zero =>
      simp only [List.getD_cons_zero, Nat.add_zero]
      constructor
      · have e1 : nq - (m + 1) + 1 = nq - (m + 1) + 0 + 1 := by omega
        have e2 : nq - (nq - (m + 1) + 1) = m + 1 - 0 - 1 := by omega
        rw [← e1, e2]
      · trivial
    | succ i =>
      rw [List.getD_cons_succ]
      have h := ih (by omega) (level_pass ph (2 ^ (m + 1))).1 i (by omega)
      have e1 : nq - m + i + 1 = nq - (m + 1) + (i + 1) + 1 := by omega
      have e2 : m - i - 1 = m + 1 - (i + 1) - 1 := by omega
      have e3 : nq - m + i = nq - (m + 1) + (i + 1) := by omega
      rw [e1, e2, e3] at h
      exact h

/-- C3 (amended): the emission order of `_dec_diag` is finest-level-first: for a
validated diagonal of length `2 ^ k`, instruction `i` (for `i = 0, ..., k - 1`, in
emission order) targets qubit `i` and is controlled by the `k - i - 1` qubits
`i + 1, ..., k - 1`; so the first emitted instruction has the most (`k - 1`) controls and
targets the first qubit, the last emitted instruction has no controls and targets the
last qubit, and as the working length `n` halves the target index moves from the first
qubit toward the last. -/
theorem C3_emission_order_amended (k : ℕ) (d : List ℂ) (hlen : d.length = 2 ^ k)
    (i : ℕ) (hi : i < k) :
    ((dec_diag k d).getD i { angles := [], controls := [], target := 0 }).controls
      = List.range' (i + 1) (k - i - 1) ∧
    ((dec_diag k d).getD i { angles := [], controls := [], target := 0 }).target = i := by
  have h := dec_diag_loop_getD k k le_rfl (d.map Complex.arg) i hi
  rw [dec_diag, hlen]
  have e : k - k + i = i := by omega
  rw [e] at h
  exact h

/-- Witness for the amended C3 on the length-4 all-ones diagonal: instruction 0 has
controls `[1]` and target 0. -/
theorem C3_amended_witness :
    ((dec_diag 2 [1, 1, 1, 1]).getD 0
        { angles := [], controls := [], target := 0 }).controls = List.range' 1 1 ∧
    ((dec_diag 2 [1, 1, 1, 1]).getD 0
        { angles := [], controls := [], target := 0 }).target = 0 :=
  C3_emission_order_amended 2 [1, 1, 1, 1] (by norm_num) 0 (by omega)

theorem log2_four : Nat.log2 4 = 2 := by
  have h := log2_two_pow 2
  norm_num at h
  exact h

theorem log2_two : Nat.log2 2 = 1 := by
  have h := log2_two_pow 1
  norm_num at h
  exact h

theorem dec_diag_loop_two_qubits (ph : List ℝ) :
    dec_diag_loop 2 ph 4 =
      [{ angles := (level_pass ph 4).2, controls := [1], target := 0 },
       { angles := (level_pass (level_pass ph 4).1 2).2, controls := [], target := 1 }] := by
  rw [dec_diag_loop_of_le 2 ph 4 (by omega),
    show (4 : ℕ) / 2 = 2 from rfl,
    dec_diag_loop_of_le 2 _ 2 (by omega),
    show (2 : ℕ) / 2 = 1 from rfl,
    dec_diag_loop_of_lt 2 _ 1 (by omega)]
  norm_num [log2_four, log2_two, List.range']

/-- C3 counterexample: on the validated two-qubit all-ones diagonal the control counts of
the two emitted instructions are `[1, 0]` — the first emitted instruction carries the
most (`k - 1 = 1`) controls and the last carries none — not `[0, 1]` as the claimed
coarsest-first emission order (fewest controls first, most controls last) requires. -/
theorem C3_counterexample :
    ((dec_diag 2 [1, 1, 1, 1]).map (fun ins => ins.controls.length) = [1, 0]) ∧
    ¬ ((dec_diag 2 [1, 1, 1, 1]).map (fun ins => ins.controls.length) = [0, 1]) := by
  have hmain : (dec_diag 2 [1, 1, 1, 1]).map (fun ins => ins.controls.length) = [1, 0] := by
    rw [dec_diag, show ([1, 1, 1, 1] : List ℂ).length = 4 from rfl,
      dec_diag_loop_two_qubits]
    rfl
  refine ⟨hmain, ?_⟩
  rw [hmain]
  decide

theorem arg_list_cz : ([1, 1, 1, -1] : List ℂ).map Complex.arg = [0, 0, 0, Real.pi] := by
  simp [Complex.arg_one, Complex.arg_neg_one]

theorem level_pass_cz1 : level_pass ([0, 0, 0, Real.pi] : List ℝ) 4 =
    ([0, Real.pi / 2, 0, Real.pi], [0, Real.pi]) := by
  show (List.range' 0 ((4 + 1) / 2) 2).foldl rz_step _ = _
  norm_num [List.range', rz_step, extract_rz, List.set]

theorem level_pass_cz2 : level_pass ([0, Real.pi / 2, 0, Real.pi] : List ℝ) 2 =
    ([Real.pi / 4, Real.pi / 2, 0, Real.pi], [Real.pi / 2]) := by
  show (List.range' 0 ((2 + 1) / 2) 2).foldl rz_step _ = _
  norm_num [List.range', rz_step, extract_rz, List.set]
  ring

theorem dec_diag_cz : dec_diag 2 [1, 1, 1, -1] =
    [{ angles := [0, Real.pi], controls := [1], target := 0 },
     { angles := [Real.pi / 2], controls := [], target := 1 }] := by
  rw [dec_diag, arg_list_cz, show ([1, 1, 1, -1] : List ℂ).length = 4 from rfl,
    dec_diag_loop_two_qubits, level_pass_cz1]
  norm_num [level_pass_cz2]

theorem final_phase_cz :
    final_phase (([1, 1, 1, -1] : List ℂ).map Complex.arg) 4 = Real.pi / 4 := by
  rw [arg_list_cz, final_phase_of_le _ 4 (by omega), show (4 : ℕ) / 2 = 2 from rfl,
    level_pass_cz1]
  norm_num
  rw [final_phase_of_le _ 2 (by omega), show (2 : ℕ) / 2 = 1 from rfl, level_pass_cz2]
  norm_num
  rw [final_phase_of_lt _ 1 (by omega)]
  rfl

/-- C4 counterexample: for the diagonal `[1, 1, 1, -1]` the remaining (zero-control)
level of the decomposition produces the angle `π / 2`, not `0` as the claim asserts for
the remaining global-phase level. -/
theorem C4_counterexample :
    ¬ (((dec_diag 2 [1, 1, 1, -1]).getD 1
        { angles := [], controls := [], target := 0 }).angles = [0]) := by
  rw [dec_diag_cz]
  simp [Real.pi_ne_zero]

/-- C4 (amended): decomposing `[1, 1, 1, -1]` on two qubits yields exactly one level with
a one-control instruction; its angles are exactly the closed-form deltas
`phase[2i+1] - phase[2i]` applied to the extracted phases `[0, 0, 0, π]`, namely `0` at
control pattern 0 and `π` at control pattern 1; the remaining zero-control level produces
the angle `π / 2` (not `0`), and the leftover global phase is `π / 4`. -/
theorem C4_two_qubit_case_amended :
    dec_diag 2 [1, 1, 1, -1] =
      [{ angles := [rz_angle ([0, 0, 0, Real.pi] : List ℝ) 0,
                    rz_angle ([0, 0, 0, Real.pi] : List ℝ) 1],
         controls := [1], target := 0 },
       { angles := [Real.pi / 2], controls := [], target := 1 }] ∧
    rz_angle ([0, 0, 0, Real.pi] : List ℝ) 0 = 0 ∧
    rz_angle ([0, 0, 0, Real.pi] : List ℝ) 1 = Real.pi ∧
    final_phase (([1, 1, 1, -1] : List ℂ).map Complex.arg) 4 = Real.pi / 4 := by
  refine ⟨?_, ?_, ?_, final_phase_cz⟩
  · rw [dec_diag_cz]
    norm_num [rz_angle]
  · norm_num [rz_angle]
  · norm_num [rz_angle]

/-- C5: at every reduction level with even active length `n ≥ 2` (within the algorithm
`n` is a power of two), for every pair index `i < n / 2` the algorithm replaces the pair
`(phase[2i], phase[2i+1])` with the merged value `(phase[2i] + phase[2i+1]) / 2` stored at
position `i` of the updated vector and records `phase[2i+1] - phase[2i]` as the rotation
angle for control-bit pattern `i`; the `n / 2` recorded angles are collected in index
order `i = 0, 1, ...` and form the angle list of the single instruction emitted for that
level. -/
theorem C5_pairwise_extraction (ph : List ℝ) (n : ℕ) (h2 : 2 ≤ n) (heven : n % 2 = 0)
    (hlen : n ≤ ph.length) :
    (∀ i : ℕ, i < n / 2 →
      (level_pass ph n).1.getD i 0 = (ph.getD (2 * i) 0 + ph.getD (2 * i + 1) 0) / 2 ∧
      (level_pass ph n).2.getD i 0 = ph.getD (2 * i + 1) 0 - ph.getD (2 * i) 0) ∧
    (level_pass ph n).2 =
      (List.range (n / 2)).map (fun i => ph.getD (2 * i + 1) 0 - ph.getD (2 * i) 0) ∧
    ∀ nq : ℕ, ∃ rest, dec_diag_loop nq ph n =
      { angles := (level_pass ph n).2,
        controls := List.range' (nq - Nat.log2 n + 1) (nq - (nq - Nat.log2 n + 1)),
        target := nq - Nat.log2 n } :: rest := by
  have hhalf : (n + 1) / 2 = n / 2 := by omega
  refine ⟨?_, ?_, ?_⟩
  · intro i hi
    constructor
    · rw [level_pass_fst_getD, if_pos (by omega : i < (n + 1) / 2)]
      rfl
    · rw [level_pass_snd, getD_map_range _ _ (by omega : i < (n + 1) / 2)]
      rfl
  · rw [level_pass_snd, hhalf]
    rfl
  · intro nq
    exact ⟨_, dec_diag_loop_of_le nq ph n h2⟩

/-- Witness for C5 on the concrete phase vector `[1, 5, 2, 4]` with `n = 4`. -/
theorem C5_witness :
    (∀ i : ℕ, i < 4 / 2 →
      (level_pass ([1, 5, 2, 4] : List ℝ) 4).1.getD i 0 =
        (([1, 5, 2, 4] : List ℝ).getD (2 * i) 0 +
          ([1, 5, 2, 4] : List ℝ).getD (2 * i + 1) 0) / 2 ∧
      (level_pass ([1, 5, 2, 4] : List ℝ) 4).2.getD i 0 =
        ([1, 5, 2, 4] : List ℝ).getD (2 * i + 1) 0 -
          ([1, 5, 2, 4] : List ℝ).getD (2 * i) 0) ∧
    (level_pass ([1, 5, 2, 4] : List ℝ) 4).2 =
      (List.range (4 / 2)).map (fun i => ([1, 5, 2, 4] : List ℝ).getD (2 * i + 1) 0 -
        ([1, 5, 2, 4] : List ℝ).getD (2 * i) 0) ∧
    ∀ nq : ℕ, ∃ rest, dec_diag_loop nq ([1, 5, 2, 4] : List ℝ) 4 =
      { angles := (level_pass ([1, 5, 2, 4] : List ℝ) 4).2,
        controls := List.range' (nq - Nat.log2 4 + 1) (nq - (nq - Nat.log2 4 + 1)),
        target := nq - Nat.log2 4 } :: rest :=
  C5_pairwise_extraction [1, 5, 2, 4] 4 (by omega) (by omega) (by norm_num)

theorem pairMeans_length {α : Type} [Field α] : ∀ (l : List α),
    (pairMeans l).length = l.length / 2
  | [] => by simp [pairMeans]
  | [x] => by simp [pairMeans]
  | x :: y :: rest => by
    simp only [pairMeans, List.length_cons, pairMeans_length rest]
    omega

theorem pairDeltas_length {α : Type} [Field α] : ∀ (l : List α),
    (pairDeltas l).length = l.length / 2
  | [] => by simp [pairDeltas]
  | [x] => by simp [pairDeltas]
  | x :: y :: rest => by
    simp only [pairDeltas, List.length_cons, pairDeltas_length rest]
    omega

theorem pairMeans_getD {α : Type} [Field α] : ∀ (l : List α) (i : ℕ), i < l.length / 2 →
    (pairMeans l).getD i 0 = (l.getD (2 * i) 0 + l.getD (2 * i + 1) 0) / 2
  | [], i, hi => by simp at hi
  | [x], i, hi => by
    simp only [List.length_singleton] at hi
    omega
  | x :: y :: rest, 0, _ => by simp [pairMeans]
  | x :: y :: rest, i + 1, hi => by
    have h : i < rest.length / 2 := by
      simp only [List.length_cons] at hi
      omega
    have e1 : 2 * (i + 1) = 2 * i + 1 + 1 := by omega
    simp only [pairMeans, List.getD_cons_succ, e1]
    exact pairMeans_getD rest i h

theorem pairDeltas_getD {α : Type} [Field α] : ∀ (l : List α) (i : ℕ), i < l.length / 2 →
    (pairDeltas l).getD i 0 = l.getD (2 * i + 1) 0 - l.getD (2 * i) 0
  | [], i, hi => by simp at hi
  | [x], i, hi => by
    simp only [List.length_singleton] at hi
    omega
  | x :: y :: rest, 0, _ => by simp [pairDeltas]
  | x :: y :: rest, i + 1, hi => by
    have h : i < rest.length / 2 := by
      simp only [List.length_cons] at hi
      omega
    have e1 : 2 * (i + 1) = 2 * i + 1 + 1 := by omega
    simp only [pairDeltas, List.getD_cons_succ, e1]
    exact pairDeltas_getD rest i h

theorem getElem_eq_getD {α : Type} (l : List α) (i : ℕ) (d : α) (h : i < l.length) :
    l[i] = l.getD i d := by
  rw [List.getD_eq_getElem?_getD, List.getElem?_eq_getElem h]
  rfl

theorem take_getD {α : Type} (l : List α) (n i : ℕ) (d : α) (h : i < n) :
    (l.take n).getD i d = l.getD i d := by
  rw [List.getD_eq_getElem?_getD, List.getD_eq_getElem?_getD, List.getElem?_take,
    if_pos h]

/-- C10: within each reduction level the in-place write at `i // 2` never overwrites an
entry of the current level before that entry is read, so the in-place shrinking-loop
reduction computes exactly the same per-level phase vector (the active prefix of length
`n / 2`) and the same angle list as the functional two-buffer reduction mapping
`[p0, p1, ...]` to `[(p0 + p1) / 2, (p2 + p3) / 2, ...]`. -/
theorem C10_inplace_equals_two_buffer (ph : List ℝ) (n : ℕ) (h2 : 2 ≤ n)
    (heven : n % 2 = 0) (hlen : n ≤ ph.length) :
    (level_pass ph n).1.take (n / 2) = pairMeans (ph.take n) ∧
    (level_pass ph n).2 = pairDeltas (ph.take n) := by
  have htl : (ph.take n).length = n := by
    rw [List.length_take]
    omega
  constructor
  · have hlen1 : ((level_pass ph n).1.take (n / 2)).length = n / 2 := by
      rw [List.length_take, level_pass_fst_length]
      omega
    have hlen2 : (pairMeans (ph.take n)).length = n / 2 := by
      rw [pairMeans_length, htl]
    apply List.ext_getElem (by omega)
    intro i h1 h2
    have hi : i < n / 2 := by omega
    rw [getElem_eq_getD _ i (0 : ℝ) h1, getElem_eq_getD _ i (0 : ℝ) h2]
    rw [take_getD _ _ _ _ hi, level_pass_fst_getD, if_pos (by omega : i < (n + 1) / 2),
      pairMeans_getD _ i (by omega)]
    rw [take_getD _ _ _ _ (by omega : 2 * i < n), take_getD _ _ _ _ (by omega : 2 * i + 1 < n)]
    rfl
  · have hlen1 : (level_pass ph n).2.length = n / 2 := by
      rw [level_pass_snd, List.length_map, List.length_range]
      omega
    have hlen2 : (pairDeltas (ph.take n)).length = n / 2 := by
      rw [pairDeltas_length, htl]
    apply List.ext_getElem (by omega)
    intro i h1 h2
    have hi : i < n / 2 := by omega
    rw [getElem_eq_getD _ i (0 : ℝ) h1, getElem_eq_getD _ i (0 : ℝ) h2]
    rw [level_pass_snd, getD_map_range _ _ (by omega : i < (n + 1) / 2),
      pairDeltas_getD _ i (by omega)]
    rw [take_getD _ _ _ _ (by omega : 2 * i < n), take_getD _ _ _ _ (by omega : 2 * i + 1 < n)]
    rfl

/-- Witness for C10 on the concrete phase vector `[2, 6, 10, 4]` with `n = 4`. -/
theorem C10_witness :
    (level_pass ([2, 6, 10, 4] : List ℝ) 4).1.take (4 / 2) =
      pairMeans (([2, 6, 10, 4] : List ℝ).take 4) ∧
    (level_pass ([2, 6, 10, 4] : List ℝ) 4).2 =
      pairDeltas (([2, 6, 10, 4] : List ℝ).take 4) :=
  C10_inplace_equals_two_buffer [2, 6, 10, 4] 4 (by omega) (by omega) (by norm_num)

theorem length_check_passes_iff (n : ℕ) :
    length_check_passes n ↔ ∃ k : ℕ, 1 ≤ k ∧ n = 2 ^ k := by
  constructor
  · rintro ⟨h2, hpow⟩
    refine ⟨Nat.log2 n, ?_, hpow⟩
    by_contra h
    have h0 : Nat.log2 n = 0 := by omega
    rw [h0, pow_zero] at hpow
    omega
  · rintro ⟨k, hk, rfl⟩
    refine ⟨?_, ?_⟩
    · have h : (2 : ℕ) ^ 1 ≤ 2 ^ k := Nat.pow_le_pow_right (by omega) hk
      simpa using h
    · rw [log2_two_pow]

theorem length_check_real_iff (n : ℕ) :
    length_check_real n ↔ length_check_passes n := by
  rcases Nat.eq_zero_or_pos n with rfl | hn
  · constructor
    · intro h
      exfalso
      apply h
      left
      rw [Nat.cast_zero, Real.logb_zero]
      norm_num
    · rintro ⟨h2, _⟩
      omega
  · constructor
    · intro h
      rw [length_check_real] at h
      push_neg at h
      obtain ⟨hge, m, hm⟩ := h
      have hm1 : (1 : ℝ) ≤ (m : ℝ) := by
        rw [← hm]
        exact hge
      have hmge : 1 ≤ m := by exact_mod_cast hm1
      have hpos : (0 : ℝ) < (n : ℝ) := by exact_mod_cast hn
      have h2 := Real.rpow_logb (by norm_num : (0 : ℝ) < 2) (by norm_num) hpos
      rw [hm, Real.rpow_intCast] at h2
      have hcast : (n : ℝ) = ((2 ^ m.toNat : ℕ) : ℝ) := by
        rw [← h2]
        push_cast
        rw [← zpow_natCast, Int.toNat_of_nonneg (by omega)]
      have hn2 : n = 2 ^ m.toNat := by exact_mod_cast hcast
      rw [length_check_passes, hn2, log2_two_pow]
      constructor
      · have h1 : (2 : ℕ) ^ 1 ≤ 2 ^ m.toNat := Nat.pow_le_pow_right (by omega) (by omega)
        simpa using h1
      · rfl
    · intro hp
      obtain ⟨k, hk, hkeq⟩ := (length_check_passes_iff n).mp hp
      rw [length_check_real]
      intro hcon
      have hlogb : Real.logb 2 (n : ℝ) = (k : ℝ) := by
        rw [hkeq]
        push_cast
        rw [Real.logb_pow, Real.logb_self_eq_one (by norm_num)]
        ring
      rcases hcon with hlt | hnex
      · rw [hlogb] at hlt
        have hcast : (1 : ℝ) ≤ (k : ℝ) := by exact_mod_cast hk
        linarith
      · refine hnex ⟨(k : ℤ), ?_⟩
        rw [hlogb]
        push_cast
        ring

theorem init_structural_error_none_of (n : ℕ) (h : length_check_passes n) (h0 : n ≠ 0) :
    init_structural_error n = none := by
  rw [init_structural_error, if_neg h0, if_pos h]

theorem init_structural_error_some_of (n : ℕ) (h : ¬ length_check_passes n) (h0 : n ≠ 0) :
    init_structural_error n = some PyError.structuralQiskitError := by
  rw [init_structural_error, if_neg h0, if_neg h]

theorem not_length_check_passes_between (n m : ℕ) (h1 : 2 ^ m ≤ n) (h2 : n < 2 ^ (m + 1))
    (h3 : n ≠ 2 ^ m) : ¬ length_check_passes n := by
  rintro ⟨hge, hpow⟩
  have hl : Nat.log2 n = m := by
    rw [Nat.log2_eq_log_two]
    exact Nat.log_eq_of_pow_le_of_lt_pow h1 h2
  rw [hl] at hpow
  exact h3 hpow

theorem not_length_check_passes_one : ¬ length_check_passes 1 := by
  rintro ⟨h, _⟩
  omega

/-- C6: `DiagGate` construction rejects every diagonal list whose length is not a power
of two at least 2 with the structural `QiskitError` — in particular lengths 1, 3, 5, 6, 7
are rejected — and accepts (proceeds past the structural check for) every list of length
`2 ^ k` with `k ≥ 1` that passes the entry checks — in particular lengths 2, 4, 8, 16:
the source's length guard, read in exact arithmetic (`length_check_real`), passes exactly
on the powers `2 ^ k` with `k ≥ 1`. -/
theorem C6_length_validation :
    (∀ n : ℕ, length_check_real n ↔ ∃ k : ℕ, 1 ≤ k ∧ n = 2 ^ k) ∧
    (∀ d : List ℂ, DiagGate_accepts d ↔
      ((∃ k : ℕ, 1 ≤ k ∧ d.length = 2 ^ k) ∧ ∀ z ∈ d, entry_check_passes z)) ∧
    (init_structural_error 1 = some PyError.structuralQiskitError ∧
     init_structural_error 3 = some PyError.structuralQiskitError ∧
     init_structural_error 5 = some PyError.structuralQiskitError ∧
     init_structural_error 6 = some PyError.structuralQiskitError ∧
     init_structural_error 7 = some PyError.structuralQiskitError) ∧
    (init_structural_error 2 = none ∧ init_structural_error 4 = none ∧
     init_structural_error 8 = none ∧ init_structural_error 16 = none) := by
  refine ⟨?_, ?_, ?_, ?_⟩
  · intro n
    rw [length_check_real_iff]
    exact length_check_passes_iff n
  · intro d
    constructor
    · rintro ⟨h1, h2⟩
      exact ⟨(length_check_passes_iff _).mp h1, h2⟩
    · rintro ⟨h1, h2⟩
      exact ⟨(length_check_passes_iff _).mpr h1, h2⟩
  · refine ⟨init_structural_error_some_of 1 not_length_check_passes_one (by omega),
      init_structural_error_some_of 3 ?_ (by omega),
      init_structural_error_some_of 5 ?_ (by omega),
      init_structural_error_some_of 6 ?_ (by omega),
      init_structural_error_some_of 7 ?_ (by omega)⟩
    · exact not_length_check_passes_between 3 1 (by norm_num) (by norm_num) (by norm_num)
    · exact not_length_check_passes_between 5 2 (by norm_num) (by norm_num) (by norm_num)
    · exact not_length_check_passes_between 6 2 (by norm_num) (by norm_num) (by norm_num)
    · exact not_length_check_passes_between 7 2 (by norm_num) (by norm_num) (by norm_num)
  · refine ⟨init_structural_error_none_of 2 ?_ (by omega),
      init_structural_error_none_of 4 ?_ (by omega),
      init_structural_error_none_of 8 ?_ (by omega),
      init_structural_error_none_of 16 ?_ (by omega)⟩
    · exact (length_check_passes_iff 2).mpr ⟨1, by omega, by norm_num⟩
    · exact (length_check_passes_iff 4).mpr ⟨2, by omega, by norm_num⟩
    · exact (length_check_passes_iff 8).mpr ⟨3, by omega, by norm_num⟩
    · exact (length_check_passes_iff 16).mpr ⟨4, by omega, by norm_num⟩

/-- C2 evaluation at the failing input: the modulus check `np.abs(z) - 1 < _EPS` of
`DiagGate.__init__` is one-sided, so the entry `0.5` — whose modulus deviates from 1 by
far more than the tolerance — passes the check, and the whole construction accepts the
diagonal `[1, 0.5]` instead of raising the non-unitary-entry `QiskitError`. -/
theorem C2_modulus_check_accepts_half :
    Complex.abs ((1 : ℂ) / 2) = 1 / 2 ∧
    entry_check_passes ((1 : ℂ) / 2) ∧
    DiagGate_accepts [1, (1 : ℂ) / 2] := by
  have habs : Complex.abs ((1 : ℂ) / 2) = 1 / 2 := by
    rw [map_div₀]
    simp [Complex.abs_two]
  have hentry : entry_check_passes ((1 : ℂ) / 2) := by
    rw [entry_check_passes, habs, _EPS]
    norm_num
  refine ⟨habs, hentry, ?_, ?_⟩
  · exact (length_check_passes_iff _).mpr ⟨1, by omega, by norm_num⟩
  · intro z hz
    rcases List.mem_cons.mp hz with rfl | hz2
    · rw [entry_check_passes, _EPS]
      norm_num
    · rcases List.mem_cons.mp hz2 with rfl | hz3
      · exact hentry
      · simp at hz3

/-- C9: constructing `DiagGate` with an empty list fails with an untyped `ValueError`
raised by `math.log2(0)` rather than the structural `QiskitError` raised for every other
invalid length, so the length-0 case escapes the documented error taxonomy at the public
interface. -/
theorem C9_empty_list_value_error :
    init_structural_error 0 = some PyError.valueError ∧
    some PyError.valueError ≠ some PyError.structuralQiskitError ∧
    (∀ n : ℕ, 1 ≤ n → ¬ length_check_passes n →
      init_structural_error n = some PyError.structuralQiskitError) := by
  refine ⟨rfl, by decide, ?_⟩
  intro n h1 h2
  exact init_structural_error_some_of n h2 (by omega)

/-- Witness for C9: the empty-list conclusion is closed; the quantified part evaluated at
the invalid length 3. -/
theorem C9_witness :
    init_structural_error 3 = some PyError.structuralQiskitError :=
  C9_empty_list_value_error.2.2 3 (by omega)
    (not_length_check_passes_between 3 1 (by norm_num) (by norm_num) (by norm_num))

/-- C7: calling `diag_gate` with a diagonal list and a qubit list whose length differs
from `log2(len(diag))` yields the qubit-count `QiskitError` before any gate is appended
(the function's checks run before `DiagGate(diag)` is built and appended; `some` means
the error is raised there); in particular a diagonal of length 8 (`k = 3`) with only 2
qubit identifiers is rejected. -/
theorem C7_qubit_count_mismatch :
    (∀ (d : List ℂ) (qs : List ℕ), 1 ≤ d.length → d.length ≠ 2 ^ qs.length →
      diag_gate_error d qs = some PyError.qubitCountQiskitError) ∧
    (∀ (d : List ℂ) (qs : List ℕ), d.length = 8 → qs.length = 2 →
      diag_gate_error d qs = some PyError.qubitCountQiskitError) := by
  have hmain : ∀ (d : List ℂ) (qs : List ℕ), 1 ≤ d.length → d.length ≠ 2 ^ qs.length →
      diag_gate_error d qs = some PyError.qubitCountQiskitError := by
    intro d qs h1 h2
    rw [diag_gate_error, if_neg (by omega), if_pos h2]
  refine ⟨hmain, ?_⟩
  intro d qs h8 hq2
  apply hmain
  · omega
  · rw [h8, hq2]
    norm_num

/-- Witness for C7: a concrete length-8 diagonal with a 2-element qubit list. -/
theorem C7_witness :
    diag_gate_error [1, 1, 1, 1, 1, 1, 1, 1] [0, 1] =
      some PyError.qubitCountQiskitError :=
  C7_qubit_count_mismatch.2 [1, 1, 1, 1, 1, 1, 1, 1] [0, 1] (by norm_num) (by norm_num)
